import Mathlib

/-!
Verification of the tabular document loader in
`src/readers/loaders/excel_loader.py` (classes `PandasExcelReader` and
`ExcelReader`).

The embedding works on the data that `pandas.read_excel` hands to the loader:
an ordered list of sheets, each sheet an ordered list of rows, each row an
ordered list of cells.  A cell is `Option String`: `none` is a missing value
(pandas `NaN`), `some s` is a present cell already coerced to its text
representation (`astype(str)` is the identity on this view).  Failures
(`ImportError` when pandas is absent, `ValueError` from `range(0, n, 0)`) are
modelled with `Except`, since a raised exception makes no partial output
observable.
-/

/-- Python whitespace as used by `str.strip()`:
space, tab, newline, carriage return, vertical tab, form feed. -/
def isPyWS (c : Char) : Bool :=
  c = ' ' || c = '\t' || c = '\n' || c = '\r' || c = '\x0b' || c = '\x0c'

/-- Python `str.strip()` on a list of characters: remove leading and trailing
whitespace. -/
def stripL (l : List Char) : List Char :=
  ((l.dropWhile isPyWS).reverse.dropWhile isPyWS).reverse

/-- Python `str.strip()`. -/
def pyStrip (s : String) : String :=
  String.mk (stripL s.data)

/-- Negation of `isPyWS`, the predicate of word characters. -/
def notWS (c : Char) : Bool :=
  !isPyWS c

/-- A token of the segment splitter: the maximal run of non-whitespace
characters at the head of the list together with the whitespace run that
follows it (so that concatenating tokens restores the string). -/
def takeTok (l : List Char) : List Char :=
  l.takeWhile notWS ++ (l.dropWhile notWS).takeWhile isPyWS

/-- What remains of the list after `takeTok`. -/
def dropTok (l : List Char) : List Char :=
  (l.dropWhile notWS).dropWhile isPyWS

/-- Fuel-driven tokenizer; `fuel ≥ l.length` makes it total on `l`. -/
def tokenizeF : Nat → List Char → List (List Char)
  | 0, _ => []
  | _ + 1, [] => []
  | fuel + 1, c :: rest => takeTok (c :: rest) :: tokenizeF fuel (dropTok (c :: rest))

/-- Split a character list into whitespace-delimited tokens, each token
carrying its trailing whitespace. -/
def tokenize (l : List Char) : List (List Char) :=
  tokenizeF l.length l

/-- Number of tokens of a string, the measure bounded by
`max_words_per_page`. -/
def countTokens (s : String) : Nat :=
  (tokenize s.data).length

/-- Fuel-driven grouping of a token list into runs of at most `max n 1`
tokens. -/
def chunksF : Nat → Nat → List (List Char) → List (List (List Char))
  | 0, _, _ => []
  | _ + 1, _, [] => []
  | fuel + 1, n, t :: rest =>
      ((t :: rest).take (max n 1)) :: chunksF fuel n ((t :: rest).drop (max n 1))

/-- Modelled from the spec: `split_text` (imported from
`src/readers/utils.py`, a file that is not part of the sources given here) —
"Split the rendered string into one or more segments such that each segment's
token count does not exceed the configured maximum, preserving reading order
and not dropping content", and "A batch whose rendered text is empty
contributes zero segments."  The string is cut at token boundaries into
groups of at most `max_tokens` tokens (at least one token per segment so that
nonempty input always makes progress); the empty string yields no segment. -/
def split_text (content : String) (max_tokens : Nat) : List String :=
  (chunksF (tokenize content.data).length max_tokens (tokenize content.data)).map
    (fun ch => String.mk ch.flatten)

/-- Concatenation of a list of strings in order, with no separator. -/
def concatTexts : List String → String
  | [] => ""
  | s :: rest => s ++ concatTexts rest

/-- A metadata value: the generated entries are ints and strings; caller
supplied `extra_info` values are modelled with the same two shapes. -/
inductive MetaVal where
  | num : Nat → MetaVal
  | str : String → MetaVal
  deriving DecidableEq

/-- Python `dict` assignment `d[k] = v` on an insertion-ordered association
list: replace the value in place if the key is present, else append. -/
def dictInsert : List (String × MetaVal) → String → MetaVal → List (String × MetaVal)
  | [], k, v => [(k, v)]
  | p :: rest, k, v => if p.1 = k then (k, v) :: rest else p :: dictInsert rest k v

/-- Python `dict` lookup `d[k]` (as an `Option`): the value of the first
entry carrying the key. -/
def dictLookup : List (String × MetaVal) → String → Option MetaVal
  | [], _ => none
  | p :: rest, k => if p.1 = k then some p.2 else dictLookup rest k

/-- The `Document(text=..., metadata=...)` records the loader emits. -/
structure Document where
  text : String
  metadata : List (String × MetaVal)
  deriving DecidableEq

/-- The exceptions the loader can raise. -/
inductive LoadError where
  | importError : String → LoadError
  | valueError : String → LoadError
  deriving DecidableEq

/-- Configuration of `ExcelReader` set in `__init__`. -/
structure ExcelReader where
  row_joiner : String
  col_joiner : String
  rows_per_doc : Nat
  max_words_per_page : Nat
  deriving DecidableEq

/-- `ExcelReader()` with the default settings of `__init__`. -/
def defaultExcelReader : ExcelReader :=
  { row_joiner := "\n", col_joiner := " ", rows_per_doc := 1, max_words_per_page := 2048 }

/-- Configuration of the legacy `PandasExcelReader`. -/
structure PandasExcelReader where
  row_joiner : String
  col_joiner : String
  deriving DecidableEq

/-- `df.dropna(axis=0, how="all")` followed by `df.fillna("")` and
`df.values.astype(str).tolist()`: drop the rows whose every cell is missing,
then turn the remaining missing cells into empty text. -/
def cleanSheet (df : List (List (Option String))) : List (List String) :=
  (df.filter (fun row => !row.all (fun c => c.isNone))).map
    (fun row => row.map (fun c => c.getD ""))

/-- Fuel-driven image of `for i in range(i0, len(rows), step)` with
`batch_rows = rows[i:i+step]`: the list of `(i, batch_rows)` pairs, `i` being
the 0-based offset of the batch inside the cleaned row list.  The caller
guarantees `step ≥ 1` (Python's `range` raises on `step = 0` before the loop
runs, which `ExcelReader.load_data` models with an explicit error). -/
def batchesF : Nat → Nat → Nat → List (List String) → List (Nat × List (List String))
  | 0, _, _, _ => []
  | _ + 1, _, _, [] => []
  | fuel + 1, i, step, r :: rest =>
      (i, (r :: rest).take step) :: batchesF fuel (i + step) step ((r :: rest).drop step)

/-- All row batches of a cleaned sheet, with their 0-based start offsets. -/
def batches (step : Nat) (rows : List (List String)) : List (Nat × List (List String)) :=
  batchesF rows.length 0 step rows

/-- `content = self._row_joiner.join(self._col_joiner.join(row).strip() for
row in batch_rows).strip()` — note the per-row `strip()` before the final
whole-string `strip()`. -/
def renderBatch (rowJ colJ : String) (batch : List (List String)) : String :=
  pyStrip (String.intercalate rowJ (batch.map (fun row => pyStrip (String.intercalate colJ row))))

/-- The provenance line `f"(Sheet {key} of file {file.name})\n"` prepended
when `include_sheetname` holds. -/
def provLine (key fileName : String) : String :=
  "(Sheet " ++ key ++ " of file " ++ fileName ++ ")\n"

/-- The metadata dict literal of `ExcelReader.load_data`:
`{"page_label": idx+1, "sheet_name": key, "batch_start_row": i+1,
"batch_end_row": i+len(batch_rows), "content_index": c_i+1, **extra_info}`.
The `**extra_info` expansion comes last, so it is folded over the generated
entries with Python dict-assignment semantics. -/
def mkMetadata (pageLabel : Nat) (sheetName : String) (startRow endRow contentIndex : Nat)
    (extraInfo : List (String × MetaVal)) : List (String × MetaVal) :=
  extraInfo.foldl (fun d p => dictInsert d p.1 p.2)
    [("page_label", MetaVal.num pageLabel), ("sheet_name", MetaVal.str sheetName),
     ("batch_start_row", MetaVal.num startRow), ("batch_end_row", MetaVal.num endRow),
     ("content_index", MetaVal.num contentIndex)]

/-- Body of the per-sheet loop of `ExcelReader.load_data`: clean the sheet,
batch the rows, render and split each batch, wrap every segment into a
`Document`. -/
def processSheet (r : ExcelReader) (includeSheetname : Bool) (fileName : String)
    (extraInfo : List (String × MetaVal)) (idx : Nat) (key : String)
    (df : List (List (Option String))) : List Document :=
  (batches r.rows_per_doc (cleanSheet df)).flatMap (fun b =>
    (split_text (renderBatch r.row_joiner r.col_joiner b.2) r.max_words_per_page).enum.map
      (fun ci =>
        { text := if includeSheetname then provLine key fileName ++ ci.2 else ci.2,
          metadata := mkMetadata (idx + 1) key (b.1 + 1) (b.1 + b.2.length) (ci.1 + 1)
            extraInfo }))

/-- `ExcelReader.load_data` after the parsing collaborator has produced the
sheet dictionary `dfs` (an ordered list of `(sheet name, cell grid)` pairs).
`pandasAvailable` mirrors the `import pandas` guard; `rows_per_doc = 0` makes
`range(0, len(rows), 0)` of the first processed sheet raise `ValueError`. -/
def ExcelReader.load_data (r : ExcelReader) (pandasAvailable : Bool) (fileName : String)
    (dfs : List (String × List (List (Option String)))) (includeSheetname : Bool)
    (extraInfo : List (String × MetaVal)) : Except LoadError (List Document) :=
  if pandasAvailable = false then
    Except.error (LoadError.importError
      "install pandas using `pip3 install pandas` to use this loader")
  else if r.rows_per_doc = 0 ∧ dfs ≠ [] then
    Except.error (LoadError.valueError "range() arg 3 must not be zero")
  else
    Except.ok (dfs.enum.flatMap (fun s =>
      processSheet r includeSheetname fileName extraInfo s.1 s.2.1 s.2.2))

/-- Legacy `PandasExcelReader.load_data`: per sheet an optional `[key]` row
then the cleaned rows; all sheets flattened into one row list, joined
column-wise then row-wise, emitted as a single `Document` whose metadata is
`extra_info or {}`. -/
def PandasExcelReader.load_data (r : PandasExcelReader) (pandasAvailable : Bool)
    (dfs : List (String × List (List (Option String)))) (includeSheetname : Bool)
    (extraInfo : List (String × MetaVal)) : Except LoadError (List Document) :=
  if pandasAvailable = false then
    Except.error (LoadError.importError
      "install pandas using `pip3 install pandas` to use this loader")
  else
    let df_sheets := dfs.map (fun s =>
      (if includeSheetname then [[s.1]] else []) ++ cleanSheet s.2)
    let text_list := df_sheets.flatten
    Except.ok [{ text := String.intercalate r.row_joiner
                   (text_list.map (fun sub => String.intercalate r.col_joiner sub)),
                 metadata := extraInfo }]

/-- Rendering of a batch as claim C5 words it: join cells with the
column-joiner, join rows with the row-joiner, then trim leading and trailing
whitespace of the whole string only. -/
def specRender (rowJ colJ : String) (batch : List (List String)) : String :=
  pyStrip (String.intercalate rowJ (batch.map (fun row => String.intercalate colJ row)))

/-! ### takeWhile / dropWhile helpers -/

theorem takeWhile_append_all {α : Type} (p : α → Bool) (w x : List α)
    (hw : ∀ c ∈ w, p c = true) : (w ++ x).takeWhile p = w ++ x.takeWhile p := by
  induction w with
  | nil => simp
  | cons a t ih =>
      simp [List.takeWhile_cons, hw a (List.mem_cons_self a t),
        ih (fun c hc => hw c (List.mem_cons_of_mem a hc))]

theorem dropWhile_append_all {α : Type} (p : α → Bool) (w x : List α)
    (hw : ∀ c ∈ w, p c = true) : (w ++ x).dropWhile p = x.dropWhile p := by
  induction w with
  | nil => simp
  | cons a t ih =>
      simp [List.dropWhile_cons, hw a (List.mem_cons_self a t),
        ih (fun c hc => hw c (List.mem_cons_of_mem a hc))]

theorem takeWhile_stop {α : Type} (p : α → Bool) (c : α) (x : List α)
    (hc : p c = false) : (c :: x).takeWhile p = [] := by
  simp [List.takeWhile_cons, hc]

theorem dropWhile_stop {α : Type} (p : α → Bool) (c : α) (x : List α)
    (hc : p c = false) : (c :: x).dropWhile p = c :: x := by
  simp [List.dropWhile_cons, hc]

theorem mem_takeWhile {α : Type} (p : α → Bool) (l : List α) (a : α)
    (h : a ∈ l.takeWhile p) : p a = true := by
  induction l with
  | nil => simp at h
  | cons b t ih =>
      by_cases hb : p b = true
      · rw [List.takeWhile_cons, if_pos hb] at h
        rcases List.mem_cons.mp h with h1 | h2
        · rw [h1]; exact hb
        · exact ih h2
      · rw [List.takeWhile_cons, if_neg hb] at h
        simp at h

theorem head?_dropWhile {α : Type} (p : α → Bool) (l : List α) (c : α)
    (h : (l.dropWhile p).head? = some c) : p c = false := by
  induction l with
  | nil => simp at h
  | cons b t ih =>
      by_cases hb : p b = true
      · rw [List.dropWhile_cons, if_pos hb] at h
        exact ih h
      · rw [List.dropWhile_cons, if_neg hb] at h
        simp only [List.head?_cons, Option.some.injEq] at h
        rw [← h]
        exact Bool.eq_false_iff.mpr hb

theorem head?_append_left {α : Type} (a b : List α) (ha : a ≠ []) :
    (a ++ b).head? = a.head? := by
  cases a with
  | nil => exact absurd rfl ha
  | cons x t => rfl

/-! ### token basics -/

theorem takeTok_append_dropTok (l : List Char) : takeTok l ++ dropTok l = l := by
  unfold takeTok dropTok
  rw [List.append_assoc, List.takeWhile_append_dropWhile, List.takeWhile_append_dropWhile]

theorem takeTok_ne_nil (l : List Char) (hl : l ≠ []) : takeTok l ≠ [] := by
  match l with
  | c :: rest =>
    unfold takeTok
    by_cases hc : isPyWS c = true
    · have h1 : notWS c = false := by simp [notWS, hc]
      rw [takeWhile_stop notWS c rest h1, dropWhile_stop notWS c rest h1,
        List.takeWhile_cons, if_pos hc]
      simp
    · have h1 : notWS c = true := by
        simp [notWS, Bool.eq_false_iff.mpr hc]
      rw [List.takeWhile_cons, if_pos h1]
      simp

theorem length_dropTok_lt (l : List Char) (hl : l ≠ []) :
    (dropTok l).length < l.length := by
  have h2 := congrArg List.length (takeTok_append_dropTok l)
  rw [List.length_append] at h2
  have h3 : 1 ≤ (takeTok l).length :=
    List.length_pos.mpr (takeTok_ne_nil l hl)
  omega

theorem tokenizeF_nil (fuel : Nat) : tokenizeF fuel [] = [] := by
  cases fuel <;> rfl

theorem tokenizeF_irrel (fuel : Nat) : ∀ fuel' (l : List Char),
    l.length ≤ fuel → l.length ≤ fuel' → tokenizeF fuel l = tokenizeF fuel' l := by
  induction fuel with
  | zero =>
      intro fuel' l h _
      have : l = [] := List.length_eq_zero.mp (Nat.le_zero.mp h)
      rw [this, tokenizeF_nil, tokenizeF_nil]
  | succ f ih =>
      intro fuel' l h h'
      match l with
      | [] => rw [tokenizeF_nil, tokenizeF_nil]
      | c :: rest =>
          match fuel' with
          | f' + 1 =>
              show takeTok (c :: rest) :: tokenizeF f (dropTok (c :: rest)) =
                takeTok (c :: rest) :: tokenizeF f' (dropTok (c :: rest))
              have hlt := length_dropTok_lt (c :: rest) (by simp)
              simp only [List.length_cons] at hlt h h'
              rw [ih f' (dropTok (c :: rest)) (by omega) (by omega)]

theorem tokenize_cons (l : List Char) (hl : l ≠ []) :
    tokenize l = takeTok l :: tokenize (dropTok l) := by
  match l with
  | c :: rest =>
      show tokenizeF (c :: rest).length (c :: rest) = _
      have hshow : tokenizeF (c :: rest).length (c :: rest) =
          takeTok (c :: rest) :: tokenizeF rest.length (dropTok (c :: rest)) := rfl
      rw [hshow]
      have hlt := length_dropTok_lt (c :: rest) (by simp)
      simp only [List.length_cons] at hlt
      rw [tokenizeF_irrel rest.length (dropTok (c :: rest)).length (dropTok (c :: rest))
        (by omega) (Nat.le_refl _)]
      rfl

theorem tokenizeF_flatten (fuel : Nat) : ∀ l : List Char,
    l.length ≤ fuel → (tokenizeF fuel l).flatten = l := by
  induction fuel with
  | zero =>
      intro l h
      have : l = [] := List.length_eq_zero.mp (Nat.le_zero.mp h)
      rw [this]; rfl
  | succ f ih =>
      intro l h
      match l with
      | [] => rfl
      | c :: rest =>
          show (takeTok (c :: rest) :: tokenizeF f (dropTok (c :: rest))).flatten = c :: rest
          rw [List.flatten_cons]
          have hlt := length_dropTok_lt (c :: rest) (by simp)
          simp only [List.length_cons] at hlt h
          rw [ih (dropTok (c :: rest)) (by omega)]
          exact takeTok_append_dropTok (c :: rest)

theorem tokenize_flatten (l : List Char) : (tokenize l).flatten = l :=
  tokenizeF_flatten l.length l (Nat.le_refl _)

theorem chunksF_flatten (fuel : Nat) : ∀ n (ts : List (List Char)),
    ts.length ≤ fuel → (chunksF fuel n ts).flatten = ts := by
  induction fuel with
  | zero =>
      intro n ts h
      have : ts = [] := List.length_eq_zero.mp (Nat.le_zero.mp h)
      rw [this]; rfl
  | succ f ih =>
      intro n ts h
      match ts with
      | [] => rfl
      | t :: rest =>
          show (((t :: rest).take (max n 1)) ::
            chunksF f n ((t :: rest).drop (max n 1))).flatten = t :: rest
          rw [List.flatten_cons]
          have hmax : 1 ≤ max n 1 := Nat.le_max_right n 1
          have hlen : ((t :: rest).drop (max n 1)).length = (t :: rest).length - max n 1 :=
            List.length_drop _ _
          simp only [List.length_cons] at hlen h
          rw [ih n ((t :: rest).drop (max n 1)) (by omega)]
          exact List.take_append_drop (max n 1) (t :: rest)

theorem stringDataEq {s t : String} (h : s.data = t.data) : s = t := by
  cases s
  cases t
  exact congrArg String.mk h

theorem concatTexts_data (L : List String) :
    (concatTexts L).data = (L.map String.data).flatten := by
  induction L with
  | nil => rfl
  | cons s rest ih =>
      show (s ++ concatTexts rest).data = _
      rw [String.data_append, ih]
      rfl

theorem split_text_concat (s : String) (n : Nat) :
    concatTexts (split_text s n) = s := by
  apply stringDataEq
  rw [concatTexts_data]
  unfold split_text
  rw [List.map_map]
  have h1 : (String.data ∘ fun ch : List (List Char) => String.mk ch.flatten) =
      (fun ch : List (List Char) => List.flatten ch) := rfl
  rw [h1]
  have h2 : (fun ch : List (List Char) => List.flatten ch) =
      (List.flatten : List (List Char) → List Char) := rfl
  rw [h2, ← List.flatten_flatten,
    chunksF_flatten (tokenize s.data).length n (tokenize s.data) (Nat.le_refl _),
    tokenize_flatten]

/-! ### retokenization of token-aligned slices -/

theorem head?_takeTok (l : List Char) (hl : l ≠ []) : (takeTok l).head? = l.head? := by
  match l with
  | c :: rest =>
      by_cases hc : isPyWS c = true
      · have h1 : notWS c = false := by simp [notWS, hc]
        unfold takeTok
        rw [takeWhile_stop notWS c rest h1, dropWhile_stop notWS c rest h1,
          List.nil_append, List.takeWhile_cons, if_pos hc]
        rfl
      · have h1 : notWS c = true := by simp [notWS, Bool.eq_false_iff.mpr hc]
        unfold takeTok
        rw [List.takeWhile_cons, if_pos h1]
        rfl

theorem head?_dropTok (l : List Char) (c : Char) (h : (dropTok l).head? = some c) :
    isPyWS c = false := by
  unfold dropTok at h
  exact head?_dropWhile isPyWS _ c h

theorem dropTok_of_dropWhile_nil (l : List Char) (h : l.dropWhile notWS = []) :
    dropTok l = [] := by
  unfold dropTok
  rw [h]
  rfl

theorem sp_nil_dropWhile_nil (l : List Char)
    (h : (l.dropWhile notWS).takeWhile isPyWS = []) : l.dropWhile notWS = [] := by
  cases hd : l.dropWhile notWS with
  | nil => rfl
  | cons d d' =>
      have hdw : notWS d = false := by
        apply head?_dropWhile notWS l d
        rw [hd]
        rfl
      have hdws : isPyWS d = true := by
        have := Bool.eq_false_iff.mp hdw
        simp [notWS] at this
        exact this
      rw [hd, List.takeWhile_cons, if_pos hdws] at h
      simp at h

theorem tokenize_prepend (l m : List Char) (_hl : l ≠ [])
    (hm : ∀ c, m.head? = some c → isPyWS c = false)
    (hm2 : dropTok l = [] → m = []) :
    takeTok (takeTok l ++ m) = takeTok l ∧ dropTok (takeTok l ++ m) = m := by
  have hw_all : ∀ c ∈ l.takeWhile notWS, notWS c = true :=
    fun c hc => mem_takeWhile notWS l c hc
  have hsp_all : ∀ c ∈ (l.dropWhile notWS).takeWhile isPyWS, isPyWS c = true :=
    fun c hc => mem_takeWhile isPyWS _ c hc
  have htwm : m.takeWhile isPyWS = [] := by
    cases hmc : m with
    | nil => rfl
    | cons c2 m2 =>
        apply takeWhile_stop
        apply hm c2
        rw [hmc]
        rfl
  have hdwm : m.dropWhile isPyWS = m := by
    cases hmc : m with
    | nil => rfl
    | cons c2 m2 =>
        apply dropWhile_stop
        apply hm c2
        rw [hmc]
        rfl
  cases hsp : (l.dropWhile notWS).takeWhile isPyWS with
  | cons c1 sp2 =>
      have hc1 : isPyWS c1 = true := by
        apply hsp_all
        rw [hsp]
        exact List.mem_cons_self c1 sp2
      have hc1n : notWS c1 = false := by simp [notWS, hc1]
      have hsp2_all : ∀ c ∈ sp2, isPyWS c = true := by
        intro c hc
        apply hsp_all
        rw [hsp]
        exact List.mem_cons_of_mem c1 hc
      have key_tw : (takeTok l ++ m).takeWhile notWS = l.takeWhile notWS := by
        unfold takeTok
        rw [hsp, List.append_assoc, List.cons_append]
        rw [takeWhile_append_all notWS (l.takeWhile notWS) (c1 :: (sp2 ++ m)) hw_all]
        rw [takeWhile_stop notWS c1 (sp2 ++ m) hc1n, List.append_nil]
      have key_dw : (takeTok l ++ m).dropWhile notWS = c1 :: (sp2 ++ m) := by
        unfold takeTok
        rw [hsp, List.append_assoc, List.cons_append]
        rw [dropWhile_append_all notWS (l.takeWhile notWS) (c1 :: (sp2 ++ m)) hw_all]
        rw [dropWhile_stop notWS c1 (sp2 ++ m) hc1n]
      constructor
      · have hdef : takeTok (takeTok l ++ m) =
            (takeTok l ++ m).takeWhile notWS ++
              ((takeTok l ++ m).dropWhile notWS).takeWhile isPyWS := rfl
        rw [hdef, key_tw, key_dw]
        rw [List.takeWhile_cons, if_pos hc1]
        rw [takeWhile_append_all isPyWS sp2 m hsp2_all, htwm, List.append_nil]
        have hdef2 : takeTok l =
            l.takeWhile notWS ++ (l.dropWhile notWS).takeWhile isPyWS := rfl
        rw [hdef2, hsp]
      · have hdef : dropTok (takeTok l ++ m) =
            ((takeTok l ++ m).dropWhile notWS).dropWhile isPyWS := rfl
        rw [hdef, key_dw]
        rw [List.dropWhile_cons, if_pos hc1]
        rw [dropWhile_append_all isPyWS sp2 m hsp2_all, hdwm]
  | nil =>
      have hdw : l.dropWhile notWS = [] := sp_nil_dropWhile_nil l hsp
      have hmnil : m = [] := hm2 (dropTok_of_dropWhile_nil l hdw)
      have htl : takeTok l = l.takeWhile notWS := by
        unfold takeTok
        rw [hsp, List.append_nil]
      rw [hmnil, htl, List.append_nil]
      have htw_id : (l.takeWhile notWS).takeWhile notWS = l.takeWhile notWS := by
        have h := takeWhile_append_all notWS (l.takeWhile notWS) [] hw_all
        simpa using h
      have hdw_nil : (l.takeWhile notWS).dropWhile notWS = [] := by
        have h := dropWhile_append_all notWS (l.takeWhile notWS) [] hw_all
        simpa using h
      constructor
      · unfold takeTok
        rw [htw_id, hdw_nil, List.takeWhile_nil, List.append_nil]
      · unfold dropTok
        rw [hdw_nil]
        rfl

theorem tokenize_append_tok (l m : List Char) (hl : l ≠ [])
    (hm : ∀ c, m.head? = some c → isPyWS c = false)
    (hm2 : dropTok l = [] → m = []) :
    tokenize (takeTok l ++ m) = takeTok l :: tokenize m := by
  have hne : takeTok l ++ m ≠ [] := by
    intro habs
    exact takeTok_ne_nil l hl (List.append_eq_nil.mp habs).1
  rw [tokenize_cons (takeTok l ++ m) hne]
  obtain ⟨h1, h2⟩ := tokenize_prepend l m hl hm hm2
  rw [h1, h2]

theorem flatten_take_head (k : Nat) (x : List Char) (c : Char)
    (hx : ∀ c', x.head? = some c' → isPyWS c' = false)
    (h : (((tokenize x).take k).flatten).head? = some c) : isPyWS c = false := by
  match k with
  | 0 => simp at h
  | k + 1 =>
      cases hxe : x with
      | nil =>
          rw [hxe] at h
          simp [tokenize, tokenizeF] at h
      | cons c0 x' =>
          have hxn : x ≠ [] := by rw [hxe]; simp
          rw [tokenize_cons x hxn, List.take_succ_cons, List.flatten_cons,
            head?_append_left _ _ (takeTok_ne_nil x hxn), head?_takeTok x hxn] at h
          exact hx c h

theorem tokenize_take (k : Nat) : ∀ l : List Char,
    tokenize (((tokenize l).take k).flatten) = (tokenize l).take k := by
  induction k with
  | zero => intro l; rfl
  | succ k ih =>
      intro l
      by_cases hl : l = []
      · rw [hl]
        rfl
      · rw [tokenize_cons l hl, List.take_succ_cons, List.flatten_cons]
        have hm : ∀ c, (((tokenize (dropTok l)).take k).flatten).head? = some c →
            isPyWS c = false :=
          fun c hc => flatten_take_head k (dropTok l) c (head?_dropTok l) hc
        have hm2 : dropTok l = [] → ((tokenize (dropTok l)).take k).flatten = [] := by
          intro h
          rw [h]
          show ((tokenize []).take k).flatten = []
          rw [show tokenize [] = [] from rfl, List.take_nil]
          rfl
        rw [tokenize_append_tok l _ hl hm hm2, ih (dropTok l)]

theorem tokenize_drop (k : Nat) : ∀ l : List Char, ∃ m : List Char,
    (tokenize l).drop k = tokenize m := by
  induction k with
  | zero => intro l; exact ⟨l, rfl⟩
  | succ k ih =>
      intro l
      by_cases hl : l = []
      · refine ⟨[], ?_⟩
        rw [hl]
        show (tokenize []).drop (k + 1) = tokenize []
        rw [show tokenize [] = [] from rfl, List.drop_nil]
      · rw [tokenize_cons l hl, List.drop_succ_cons]
        exact ih (dropTok l)

theorem chunksF_mem (fuel : Nat) : ∀ n (l : List Char) (ch : List (List Char)),
    (tokenize l).length ≤ fuel → ch ∈ chunksF fuel n (tokenize l) →
    tokenize ch.flatten = ch ∧ ch.length ≤ max n 1 := by
  induction fuel with
  | zero =>
      intro n l ch h hch
      have : tokenize l = [] := List.length_eq_zero.mp (Nat.le_zero.mp h)
      rw [this] at hch
      simp [chunksF] at hch
  | succ f ih =>
      intro n l ch h hch
      cases hts : tokenize l with
      | nil =>
          rw [hts] at hch
          simp [chunksF] at hch
      | cons t rest =>
          rw [hts] at hch h
          rcases List.mem_cons.mp hch with h1 | h2
          · constructor
            · have := tokenize_take (max n 1) l
              rw [hts] at this
              rw [h1]
              exact this
            · rw [h1, List.length_take]
              exact Nat.min_le_left _ _
          · obtain ⟨m, hm⟩ := tokenize_drop (max n 1) l
            rw [hts] at hm
            rw [hm] at h2
            apply ih n m ch ?_ h2
            rw [← hm, List.length_drop]
            have hmax : 1 ≤ max n 1 := Nat.le_max_right n 1
            simp only [List.length_cons] at h ⊢
            omega

/-! ### dict lemmas -/

theorem dictLookup_insert_self (d : List (String × MetaVal)) (k : String) (v : MetaVal) :
    dictLookup (dictInsert d k v) k = some v := by
  induction d with
  | nil => simp [dictInsert, dictLookup]
  | cons p rest ih =>
      by_cases hp : p.1 = k
      · simp [dictInsert, hp, dictLookup]
      · simp [dictInsert, hp, dictLookup, ih]

theorem dictLookup_insert_ne (d : List (String × MetaVal)) (k k2 : String) (v : MetaVal)
    (hne : k2 ≠ k) : dictLookup (dictInsert d k v) k2 = dictLookup d k2 := by
  induction d with
  | nil => simp [dictInsert, dictLookup, Ne.symm hne]
  | cons p rest ih =>
      by_cases hp : p.1 = k
      · have hp2 : ¬ p.1 = k2 := by rw [hp]; exact Ne.symm hne
        simp [dictInsert, hp, dictLookup, Ne.symm hne, hp2]
      · by_cases hq : p.1 = k2
        · simp [dictInsert, hp, dictLookup, hq, hne]
        · simp [dictInsert, hp, dictLookup, hq, ih]

theorem dictLookup_foldl_not_mem (ps : List (String × MetaVal)) :
    ∀ (d : List (String × MetaVal)) (k : String), k ∉ ps.map (fun p => p.1) →
    dictLookup (ps.foldl (fun d2 p => dictInsert d2 p.1 p.2) d) k = dictLookup d k := by
  induction ps with
  | nil => intro d k _; rfl
  | cons p rest ih =>
      intro d k hk
      simp only [List.map_cons, List.mem_cons] at hk
      push_neg at hk
      rw [List.foldl_cons]
      rw [ih (dictInsert d p.1 p.2) k hk.2]
      exact dictLookup_insert_ne d p.1 k p.2 hk.1

theorem dictLookup_foldl_mem (ps : List (String × MetaVal)) :
    ∀ (d : List (String × MetaVal)) (k : String) (v : MetaVal),
    (ps.map (fun p => p.1)).Nodup → (k, v) ∈ ps →
    dictLookup (ps.foldl (fun d2 p => dictInsert d2 p.1 p.2) d) k = some v := by
  induction ps with
  | nil => intro d k v _ h; simp at h
  | cons p rest ih =>
      intro d k v hnd hkv
      simp only [List.map_cons, List.nodup_cons] at hnd
      rw [List.foldl_cons]
      rcases List.mem_cons.mp hkv with h1 | h2
      · have hk : p.1 = k := by rw [← h1]
        have hv : p.2 = v := by rw [← h1]
        rw [dictLookup_foldl_not_mem rest (dictInsert d p.1 p.2) k (by
          rw [← hk]; exact hnd.1)]
        rw [hk, hv] at *
        exact dictLookup_insert_self d k v
      · exact ih (dictInsert d p.1 p.2) k v hnd.2 h2

theorem mkMetadata_lookup (pageLabel : Nat) (sheetName : String)
    (startRow endRow contentIndex : Nat) (extraInfo : List (String × MetaVal))
    (k : String) (v : MetaVal) (hnd : (extraInfo.map (fun p => p.1)).Nodup)
    (hkv : (k, v) ∈ extraInfo) :
    dictLookup (mkMetadata pageLabel sheetName startRow endRow contentIndex extraInfo) k =
      some v := by
  unfold mkMetadata
  exact dictLookup_foldl_mem extraInfo _ k v hnd hkv

/-! ### batching invariants -/

theorem batchesF_spec (fuel : Nat) : ∀ (i step : Nat) (rows full : List (List String)),
    1 ≤ step → rows.length ≤ fuel → rows = full.drop i →
    ((batchesF fuel i step rows).map (fun b => b.2)).flatten = rows ∧
    ∀ b ∈ batchesF fuel i step rows,
      i ≤ b.1 ∧ b.2 = (full.drop b.1).take step ∧ 1 ≤ b.2.length ∧
      b.2.length ≤ step ∧ (b.2.length = step ∨ full.length ≤ b.1 + step) := by
  induction fuel with
  | zero =>
      intro i step rows full hstep h hrows
      have : rows = [] := List.length_eq_zero.mp (Nat.le_zero.mp h)
      rw [this]
      exact ⟨rfl, by intro b hb; simp [batchesF] at hb⟩
  | succ f ih =>
      intro i step rows full hstep h hrows
      match rows, hrows with
      | [], _ => exact ⟨rfl, by intro b hb; simp [batchesF] at hb⟩
      | r :: rest, hrows =>
          have hlen : (r :: rest).length = full.length - i := by
            rw [hrows, List.length_drop]
          have hdd : (r :: rest).drop step = full.drop (i + step) := by
            rw [hrows, List.drop_drop, Nat.add_comm]
          have hrec := ih (i + step) step ((r :: rest).drop step) full hstep
            (by simp only [List.length_drop, List.length_cons] at h ⊢; omega)
            hdd
          constructor
          · show ((r :: rest).take step ::
              (batchesF f (i + step) step ((r :: rest).drop step)).map (fun b => b.2)).flatten
                = r :: rest
            rw [List.flatten_cons, hrec.1]
            exact List.take_append_drop step (r :: rest)
          · intro b hb
            rcases List.mem_cons.mp hb with h1 | h2
            · rw [h1]
              have hmin : ((r :: rest).take step).length = min step (r :: rest).length :=
                List.length_take step (r :: rest)
              have hcons : (r :: rest).length = rest.length + 1 := List.length_cons r rest
              simp only [List.length_cons] at hlen
              refine ⟨Nat.le_refl i, by rw [← hrows], ?_, ?_, ?_⟩
              · rw [hmin, hcons]
                omega
              · rw [hmin]
                exact Nat.min_le_left _ _
              · rw [hmin, hcons]
                omega
            · have hb2 := hrec.2 b h2
              exact ⟨Nat.le_trans (Nat.le_add_right i step) hb2.1, hb2.2.1,
                hb2.2.2.1, hb2.2.2.2.1, hb2.2.2.2.2⟩

theorem batches_spec (step : Nat) (rows : List (List String)) (hstep : 1 ≤ step) :
    ((batches step rows).map (fun b => b.2)).flatten = rows ∧
    ∀ b ∈ batches step rows,
      b.2 = (rows.drop b.1).take step ∧ 1 ≤ b.2.length ∧ b.2.length ≤ step ∧
      (b.2.length = step ∨ rows.length ≤ b.1 + step) := by
  have h := batchesF_spec rows.length 0 step rows rows hstep (Nat.le_refl _)
    (by rw [List.drop_zero])
  exact ⟨h.1, fun b hb => ⟨(h.2 b hb).2.1, (h.2 b hb).2.2.1, (h.2 b hb).2.2.2.1,
    (h.2 b hb).2.2.2.2⟩⟩

/-! ### metadata extraction from the loader output -/

theorem mem_processSheet_metadata (r : ExcelReader) (inc : Bool) (fn : String)
    (extra : List (String × MetaVal)) (idx : Nat) (key : String)
    (df : List (List (Option String))) (doc : Document)
    (h : doc ∈ processSheet r inc fn extra idx key df) :
    ∃ srow erow ci, doc.metadata = mkMetadata (idx + 1) key srow erow ci extra := by
  unfold processSheet at h
  rw [List.mem_flatMap] at h
  obtain ⟨b, _, hdoc⟩ := h
  rw [List.mem_map] at hdoc
  obtain ⟨ci, _, hdoc2⟩ := hdoc
  refine ⟨b.1 + 1, b.1 + b.2.length, ci.1 + 1, ?_⟩
  rw [← hdoc2]

theorem load_data_ok_metadata (r : ExcelReader) (fn : String)
    (dfs : List (String × List (List (Option String)))) (inc : Bool)
    (extra : List (String × MetaVal)) (docs : List Document)
    (hok : ExcelReader.load_data r true fn dfs inc extra = Except.ok docs)
    (doc : Document) (hdoc : doc ∈ docs) :
    ∃ pl key srow erow ci, doc.metadata = mkMetadata pl key srow erow ci extra := by
  unfold ExcelReader.load_data at hok
  rw [if_neg (by simp)] at hok
  by_cases hc : r.rows_per_doc = 0 ∧ dfs ≠ []
  · rw [if_pos hc] at hok
    exact absurd hok (by simp)
  · rw [if_neg hc] at hok
    simp only [Except.ok.injEq] at hok
    rw [← hok] at hdoc
    rw [List.mem_flatMap] at hdoc
    obtain ⟨s, _, hmem⟩ := hdoc
    obtain ⟨srow, erow, ci, hmeta⟩ :=
      mem_processSheet_metadata r inc fn extra s.1 s.2.1 s.2.2 doc hmem
    exact ⟨s.1 + 1, s.2.1, srow, erow, ci, hmeta⟩

/-! ### Claims -/

/-- C1, counterexample: with `extra_info = {"page_label": "x"}` the emitted
document's metadata carries the caller's value `"x"` for `page_label`, not
the generated sheet ordinal `1` — because `**extra_info` is expanded last in
the metadata dict literal, the caller's value overwrites the generated one,
contradicting "generated keys win". -/
theorem claim_C1_counterexample :
    ExcelReader.load_data defaultExcelReader true "f.xlsx" [("Sheet1", [[some "a"]])] false
      [("page_label", MetaVal.str "x")] =
      Except.ok [Document.mk "a"
        [("page_label", MetaVal.str "x"), ("sheet_name", MetaVal.str "Sheet1"),
          ("batch_start_row", MetaVal.num 1), ("batch_end_row", MetaVal.num 1),
          ("content_index", MetaVal.num 1)]] ∧
    dictLookup [("page_label", MetaVal.str "x"), ("sheet_name", MetaVal.str "Sheet1"),
        ("batch_start_row", MetaVal.num 1), ("batch_end_row", MetaVal.num 1),
        ("content_index", MetaVal.num 1)] "page_label" = some (MetaVal.str "x") ∧
    MetaVal.str "x" ≠ MetaVal.num 1 :=
  ⟨rfl, rfl, by decide⟩

/-- C1, amended: every call to `ExcelReader.load_data` with a caller-supplied
`extra_info` mapping (with distinct keys, as a Python dict has) puts every
`extra_info` key into each emitted document's metadata, and on a collision
with a generated key (`page_label`, `sheet_name`, `batch_start_row`,
`batch_end_row`, `content_index`) the caller's `extra_info` value is the one
present in the output metadata: caller keys win, not generated keys. -/
theorem claim_C1_amended (r : ExcelReader) (fn : String)
    (dfs : List (String × List (List (Option String)))) (inc : Bool)
    (extra : List (String × MetaVal)) (docs : List Document)
    (hnd : (extra.map (fun p => p.1)).Nodup)
    (hok : ExcelReader.load_data r true fn dfs inc extra = Except.ok docs)
    (doc : Document) (hdoc : doc ∈ docs) (k : String) (v : MetaVal)
    (hkv : (k, v) ∈ extra) :
    dictLookup doc.metadata k = some v := by
  obtain ⟨pl, key, srow, erow, ci, hmeta⟩ :=
    load_data_ok_metadata r fn dfs inc extra docs hok doc hdoc
  rw [hmeta]
  exact mkMetadata_lookup pl key srow erow ci extra k v hnd hkv

/-- C1, witness for the amended theorem at a concrete collision input. -/
theorem claim_C1_witness :
    dictLookup [("page_label", MetaVal.str "x"), ("sheet_name", MetaVal.str "Sheet1"),
      ("batch_start_row", MetaVal.num 1), ("batch_end_row", MetaVal.num 1),
      ("content_index", MetaVal.num 1)] "page_label" = some (MetaVal.str "x") :=
  claim_C1_amended defaultExcelReader "f.xlsx" [("Sheet1", [[some "a"]])] false
    [("page_label", MetaVal.str "x")]
    [Document.mk "a"
       [("page_label", MetaVal.str "x"), ("sheet_name", MetaVal.str "Sheet1"),
         ("batch_start_row", MetaVal.num 1), ("batch_end_row", MetaVal.num 1),
         ("content_index", MetaVal.num 1)]] (by decide) rfl
    (Document.mk "a"
      [("page_label", MetaVal.str "x"), ("sheet_name", MetaVal.str "Sheet1"),
        ("batch_start_row", MetaVal.num 1), ("batch_end_row", MetaVal.num 1),
        ("content_index", MetaVal.num 1)]) (by decide) "page_label" (MetaVal.str "x")
    (by decide)

/-- C2: for every batch of `ExcelReader.load_data`, concatenating the raw
(unprefixed) text of all of the batch's segments in segment order
reconstructs the batch's rendered content exactly (the `split_text` model is
taken from the spec, the rendering from the code). -/
theorem claim_C2 (rowJ colJ : String) (batch : List (List String)) (n : Nat) :
    concatTexts (split_text (renderBatch rowJ colJ batch) n) =
      renderBatch rowJ colJ batch :=
  split_text_concat (renderBatch rowJ colJ batch) n

/-- C3: every segment produced by the splitter (before the optional
provenance line is prepended) has token count at most the configured maximum
`max_words_per_page`, provided that maximum is at least 1 (its default is
2048). -/
theorem claim_C3 (s : String) (n : Nat) (hn : 1 ≤ n) :
    ∀ seg ∈ split_text s n, countTokens seg ≤ n := by
  intro seg hseg
  unfold split_text at hseg
  rw [List.mem_map] at hseg
  obtain ⟨ch, hch, hsegeq⟩ := hseg
  have hmem := chunksF_mem (tokenize s.data).length n s.data ch (Nat.le_refl _) hch
  have hcount : countTokens seg = (tokenize ch.flatten).length := by
    rw [← hsegeq]
    rfl
  rw [hcount, hmem.1]
  calc ch.length ≤ max n 1 := hmem.2
    _ = n := Nat.max_eq_left hn

/-- C3, witness: at the concrete input "a b" with budget 1 the first segment
"a " has exactly one token. -/
theorem claim_C3_witness : countTokens "a " ≤ 1 :=
  claim_C3 "a b" 1 (by decide) "a " (by decide)

/-- C4, counterexample: a row whose every cell is present-but-empty text is
entirely empty after normalization, yet the code keeps it (`dropna` removes
only rows of missing cells), so the cleaned sequence is nonempty and the next
document's `batch_start_row` is 2 where the claim demands 1. -/
theorem claim_C4_counterexample :
    cleanSheet [[some ""]] = [[""]] ∧
    ([some ""].map (fun c => c.getD "")).all (fun t => t = "") = true ∧
    ExcelReader.load_data defaultExcelReader true "f.xlsx"
      [("Sheet1", [[some ""], [some "a"]])] false [] =
      Except.ok [Document.mk "a"
        [("page_label", MetaVal.num 1), ("sheet_name", MetaVal.str "Sheet1"),
          ("batch_start_row", MetaVal.num 2), ("batch_end_row", MetaVal.num 2),
          ("content_index", MetaVal.num 1)]] ∧
    MetaVal.num 2 ≠ MetaVal.num 1 :=
  ⟨rfl, rfl, rfl, by decide⟩

/-- C4, amended: a row is excluded from the cleaned row sequence iff every
cell of it is missing (pandas `NaN`); rows whose cells are present but hold
empty text are retained (they render to empty content and yield no segments,
but shift the batch row numbering).  With the scenario's empty row read as
missing cells and the provenance prefix disabled, the sheet
`[["a","b"],[missing,missing],["c","d"]]` with `rows_per_doc = 1` and default
joiners yields exactly two documents with `(batch_start_row, batch_end_row)`
`(1,1)` and `(2,2)` and texts "a b" and "c d". -/
theorem claim_C4_amended :
    ExcelReader.load_data defaultExcelReader true "f.xlsx"
      [("Sheet1", [[some "a", some "b"], [none, none], [some "c", some "d"]])] false [] =
      Except.ok [
        Document.mk "a b"
          [("page_label", MetaVal.num 1), ("sheet_name", MetaVal.str "Sheet1"),
            ("batch_start_row", MetaVal.num 1), ("batch_end_row", MetaVal.num 1),
            ("content_index", MetaVal.num 1)],
        Document.mk "c d"
          [("page_label", MetaVal.num 1), ("sheet_name", MetaVal.str "Sheet1"),
            ("batch_start_row", MetaVal.num 2), ("batch_end_row", MetaVal.num 2),
            ("content_index", MetaVal.num 1)]] ∧
    cleanSheet [[some ""], [some "a"]] = [[""], ["a"]] ∧
    cleanSheet [[none, none]] = [] :=
  ⟨rfl, rfl, rfl⟩

/-- C5, counterexample: the code strips every row's joined text before
joining the rows, so a row with trailing whitespace renders differently from
the claim's whole-string-trim-only rendering. -/
theorem claim_C5_counterexample :
    renderBatch "\n" " " [["a "], ["b"]] = "a\nb" ∧
    specRender "\n" " " [["a "], ["b"]] = "a \nb" ∧
    ("a\nb" : String) ≠ "a \nb" :=
  ⟨rfl, rfl, by decide⟩

/-- C5, amended: `ExcelReader.load_data` renders a batch by joining each
row's cells with the column-joiner and trimming that row's result, then
joining the rows with the row-joiner and trimming the whole; when no row's
joined text carries leading or trailing whitespace this coincides with the
claim's whole-string-trim-only rendering. -/
theorem claim_C5_amended (rowJ colJ : String) (batch : List (List String))
    (h : ∀ row ∈ batch,
      pyStrip (String.intercalate colJ row) = String.intercalate colJ row) :
    renderBatch rowJ colJ batch = specRender rowJ colJ batch := by
  unfold renderBatch specRender
  rw [List.map_congr_left h]

/-- C5, witness for the amended theorem at a concrete whitespace-free batch. -/
theorem claim_C5_witness :
    renderBatch "\n" " " [["a"], ["b"]] = specRender "\n" " " [["a"], ["b"]] :=
  claim_C5_amended "\n" " " [["a"], ["b"]] (by decide)

/-- C6: for `rows_per_doc ≥ 1` the batches of a cleaned sheet partition the
cleaned row sequence into consecutive slices (flattening them restores the
row list, each batch is the slice of the cleaned rows at its recorded
offset), every batch is nonempty, only the final batch may be shorter than
`rows_per_doc`, and the recorded 1-based `batch_start_row = i + 1` and
`batch_end_row = i + len(batch)` satisfy end − start + 1 = batch row count. -/
theorem claim_C6 (step : Nat) (rows : List (List String)) (hstep : 1 ≤ step) :
    ((batches step rows).map (fun b => b.2)).flatten = rows ∧
    ∀ b ∈ batches step rows,
      b.2 = (rows.drop b.1).take step ∧ 1 ≤ b.1 + 1 ∧
      (b.1 + b.2.length) - (b.1 + 1) + 1 = b.2.length ∧
      b.2.length ≤ step ∧ (b.2.length = step ∨ rows.length ≤ b.1 + step) := by
  obtain ⟨h1, h2⟩ := batches_spec step rows hstep
  refine ⟨h1, fun b hb => ?_⟩
  obtain ⟨hb1, hb2, hb3, hb4⟩ := h2 b hb
  exact ⟨hb1, Nat.le_add_left 1 b.1, by omega, hb3, hb4⟩

/-- C6, witness: the partition property at a concrete 3-row sheet with
`rows_per_doc = 2`. -/
theorem claim_C6_witness :
    ((batches 2 [["a"], ["b"], ["c"]]).map (fun b => b.2)).flatten =
      [["a"], ["b"], ["c"]] :=
  (claim_C6 2 [["a"], ["b"], ["c"]] (by decide)).1

/-- C7: a batch whose rendered text is the empty string contributes zero
segments, hence zero documents. -/
theorem claim_C7 (rowJ colJ : String) (batch : List (List String)) (n : Nat)
    (h : renderBatch rowJ colJ batch = "") :
    split_text (renderBatch rowJ colJ batch) n = [] := by
  rw [h]
  rfl

/-- C7, witness: the batch of one empty row renders to "" and yields no
segment. -/
theorem claim_C7_witness : split_text (renderBatch "\n" " " [[""]]) 2048 = [] :=
  claim_C7 "\n" " " [[""]] 2048 (by decide)

/-- C8: when pandas is unavailable, both `ExcelReader.load_data` and
`PandasExcelReader.load_data` fail with the `ImportError` carrying the
install-dependency message, and no document list is observable. -/
theorem claim_C8 (r : ExcelReader) (p : PandasExcelReader) (fn : String)
    (dfs dfs2 : List (String × List (List (Option String)))) (inc inc2 : Bool)
    (e1 e2 : List (String × MetaVal)) :
    ExcelReader.load_data r false fn dfs inc e1 =
      Except.error (LoadError.importError
        "install pandas using `pip3 install pandas` to use this loader") ∧
    PandasExcelReader.load_data p false dfs2 inc2 e2 =
      Except.error (LoadError.importError
        "install pandas using `pip3 install pandas` to use this loader") :=
  ⟨rfl, rfl⟩

/-- C9: a successful `PandasExcelReader.load_data` call returns exactly one
document; its text is the row-joiner join over all sheets' rows (an optional
leading sheet-name row per sheet, then that sheet's cleaned rows), each row
joined cell-wise with the column-joiner, and its metadata is just
`extra_info` with no per-sheet entries. -/
theorem claim_C9 (r : PandasExcelReader)
    (dfs : List (String × List (List (Option String)))) (inc : Bool)
    (extra : List (String × MetaVal)) :
    PandasExcelReader.load_data r true dfs inc extra =
      Except.ok [Document.mk
        (String.intercalate r.row_joiner
          ((dfs.flatMap (fun s => (if inc then [[s.1]] else []) ++ cleanSheet s.2)).map
            (fun row => String.intercalate r.col_joiner row)))
        extra] :=
  rfl

/-- C10: with `rows_per_doc = 0` and at least one sheet, the batching loop's
`range(0, len(rows), 0)` raises a `ValueError` and no document list is
returned. -/
theorem claim_C10 (r : ExcelReader) (fn : String)
    (dfs : List (String × List (List (Option String)))) (inc : Bool)
    (extra : List (String × MetaVal)) (h0 : r.rows_per_doc = 0) (hne : dfs ≠ []) :
    ExcelReader.load_data r true fn dfs inc extra =
      Except.error (LoadError.valueError "range() arg 3 must not be zero") := by
  unfold ExcelReader.load_data
  rw [if_neg (by simp), if_pos ⟨h0, hne⟩]

/-- C10, witness: concrete reader with `rows_per_doc = 0` on a one-sheet
source. -/
theorem claim_C10_witness :
    ExcelReader.load_data (ExcelReader.mk "\n" " " 0 2048) true "f.xlsx"
      [("Sheet1", [])] false [] =
      Except.error (LoadError.valueError "range() arg 3 must not be zero") :=
  claim_C10 (ExcelReader.mk "\n" " " 0 2048) "f.xlsx" [("Sheet1", [])] false [] rfl
    (by decide)
